import Mathlib

set_option linter.all false
set_option maxHeartbeats 1000000

namespace Bufferio

/-- Error values returned by the buffer operations, mirroring the Go package:
the package-level `ErrOverrun` and `ErrEOF`, the two ad-hoc errors built
inside `Seek`, and the encoding errors produced by `encoding/binary`. -/
inductive GoErr where
  | errOverrun
  | errEOF
  | errInvalidWhence
  | errNegativePosition
  | errEncoding
deriving DecidableEq

/-- The spec's error taxonomy; each concrete error value belongs to one kind. -/
inductive ErrKind where
  | Overrun
  | EndOfData
  | InvalidArgument
  | EncodingError
deriving DecidableEq

def GoErr.kind : GoErr → ErrKind
  | .errOverrun => .Overrun
  | .errEOF => .EndOfData
  | .errInvalidWhence => .InvalidArgument
  | .errNegativePosition => .InvalidArgument
  | .errEncoding => .EncodingError

/-- The buffer struct: a byte region `buf` and an int64 cursor `off`.
Bytes are modelled as `Nat`; the cursor is an `Int` as in the source it
is an `int64`. -/
structure BufferIo where
  buf : List Nat
  off : Int
deriving DecidableEq

/-- `NewBufferIO(b)`: wraps the region, cursor 0. -/
def NewBufferIo (b : List Nat) : BufferIo := { buf := b, off := 0 }

/-- `NewBufferIOMake(nbytes)`: zero-filled region, cursor 0. -/
def NewBufferIoMake (nbytes : Nat) : BufferIo :=
  { buf := List.replicate nbytes 0, off := 0 }

/-- `Size()`: the length of the region as an int64. -/
def Size (b : BufferIo) : Int := b.buf.length

/-- Result of a call: the returned values, the returned error (`none` for a
nil error), and the receiver state after the call; `panicked` models a Go
runtime panic (the call does not return). -/
inductive GoRes (α : Type) where
  | ret (v : α) (err : Option GoErr) (b : BufferIo)
  | panicked
deriving DecidableEq

/-- Go's `copy(dst[i:], src)` effect on `dst` (for `i ≤ dst.length`):
overwrite `dst` from position `i` with as many bytes of `src` as fit. -/
def copyInto (dst : List Nat) (i : Nat) (src : List Nat) : List Nat :=
  dst.take i ++ src.take (dst.length - i) ++ dst.drop (i + src.length)

/-- `WriteAt(p, off)`: error when `off >= Size()`; otherwise
`copy(b.buf[off:], p)` — which panics when `off < 0`. -/
def WriteAt (b : BufferIo) (p : List Nat) (off : Int) : GoRes Nat :=
  if Size b ≤ off then .ret 0 (some .errOverrun) b
  else if off < 0 then .panicked
  else .ret (min p.length (b.buf.length - off.toNat)) none
        { b with buf := copyInto b.buf off.toNat p }

/-- `Write(p)`: `WriteAt(p, b.off)`, then on success advance the cursor by
the count copied. -/
def Write (b : BufferIo) (p : List Nat) : GoRes Nat :=
  match WriteAt b p b.off with
  | .ret n none b2 => .ret n none { b2 with off := b2.off + n }
  | .ret n (some e) b2 => .ret n (some e) b2
  | .panicked => .panicked

/-- `ReadAt(p, off)`: error when `off >= Size()`; otherwise
`copy(p, b.buf[off:])` (panics when `off < 0`); returns the count copied
and the destination after the copy; the receiver is unchanged. -/
def ReadAt (b : BufferIo) (p : List Nat) (off : Int) : GoRes (Nat × List Nat) :=
  if Size b ≤ off then .ret (0, p) (some .errEOF) b
  else if off < 0 then .panicked
  else .ret (min p.length (b.buf.drop off.toNat).length,
             copyInto p 0 (b.buf.drop off.toNat)) none b

/-- `Read(p)`: `ReadAt(p, b.off)`, then on success advance the cursor by the
count copied. -/
def Read (b : BufferIo) (p : List Nat) : GoRes (Nat × List Nat) :=
  match ReadAt b p b.off with
  | .ret (n, p2) none b2 => .ret (n, p2) none { b2 with off := b2.off + n }
  | .ret r (some e) b2 => .ret r (some e) b2
  | .panicked => .panicked

/-- `Seek`'s shared tail: bounds-check the candidate position, then move. -/
def seekTo (b : BufferIo) (position : Int) : GoRes Int :=
  if Size b ≤ position then .ret 0 (some .errOverrun) b
  else if position < 0 then .ret 0 (some .errNegativePosition) b
  else .ret position none { b with off := position }

/-- `Seek(offset, whence)`: `SEEK_SET = 0`, `SEEK_CUR = 1`, `SEEK_END = 2`;
the end-relative case returns `ErrOverrun` before any position is computed,
an unknown whence returns the invalid-whence error. -/
def Seek (b : BufferIo) (offset : Int) (whence : Int) : GoRes Int :=
  if whence = 0 then seekTo b offset
  else if whence = 1 then seekTo b (b.off + offset)
  else if whence = 2 then .ret 0 (some .errOverrun) b
  else .ret 0 (some .errInvalidWhence) b

/-- `Bytes()`: the backing region. -/
def Bytes (b : BufferIo) : List Nat := b.buf

/-- `Reset()`: cursor back to 0. -/
def Reset (b : BufferIo) : BufferIo := { b with off := 0 }

end Bufferio

namespace Bufferio

/- The `encoding/binary` layer: fixed-layout values are flattened into a
list of fields — Go's fixed-width types (u)int8/16/32/64, float32/64
(carried as their IEEE bit patterns, which is what the wire holds), and a
`varlen` marker for a value with no fixed-width binary representation
(string, slice header, pointer, int/uint/uintptr). Structs, fixed-size
arrays and homogeneous slices all flatten to such a field list. -/

inductive BinOrder where
  | little
  | big
deriving DecidableEq

inductive Ty where
  | u8 | u16 | u32 | u64
  | i8 | i16 | i32 | i64
  | f32 | f64
  | varlen
deriving DecidableEq

/-- Encoded width in bytes of one field type; `none` for a type with no
fixed-width representation. -/
def Ty.width : Ty → Option Nat
  | .u8 => some 1
  | .u16 => some 2
  | .u32 => some 4
  | .u64 => some 8
  | .i8 => some 1
  | .i16 => some 2
  | .i32 => some 4
  | .i64 => some 8
  | .f32 => some 4
  | .f64 => some 8
  | .varlen => none

inductive Field where
  | u8 (v : Nat)
  | u16 (v : Nat)
  | u32 (v : Nat)
  | u64 (v : Nat)
  | i8 (v : Int)
  | i16 (v : Int)
  | i32 (v : Int)
  | i64 (v : Int)
  | f32 (bits : Nat)
  | f64 (bits : Nat)
  | varlen
deriving DecidableEq

def Field.ty : Field → Ty
  | .u8 _ => .u8
  | .u16 _ => .u16
  | .u32 _ => .u32
  | .u64 _ => .u64
  | .i8 _ => .i8
  | .i16 _ => .i16
  | .i32 _ => .i32
  | .i64 _ => .i64
  | .f32 _ => .f32
  | .f64 _ => .f64
  | .varlen => .varlen

/-- Little-endian base-256 digits, least significant first, `w` bytes. -/
def encLE : Nat → Nat → List Nat
  | 0, _ => []
  | w + 1, v => v % 256 :: encLE w (v / 256)

/-- Bytes of a `w`-byte value under a byte order (big-endian is the
little-endian digit list reversed, as in Go's PutUintNN pairs). -/
def encBytes (o : BinOrder) (w v : Nat) : List Nat :=
  match o with
  | .little => encLE w v
  | .big => (encLE w v).reverse

/-- Value of a little-endian digit list. -/
def decLE : List Nat → Nat
  | [] => 0
  | d :: ds => d + 256 * decLE ds

def decBytes (o : BinOrder) (bs : List Nat) : Nat :=
  match o with
  | .little => decLE bs
  | .big => decLE bs.reverse

/-- Two's-complement wire value of a signed integer of `w` bytes. -/
def toU (w : Nat) (v : Int) : Nat := (v % ((2 : Int) ^ (8 * w))).toNat

/-- Signed value of a `w`-byte two's-complement wire value. -/
def fromU (w : Nat) (n : Nat) : Int :=
  if n < 2 ^ (8 * w - 1) then (n : Int) else (n : Int) - 2 ^ (8 * w)

/-- Width and unsigned wire value of a field; `none` for `varlen`. -/
def Field.wire : Field → Option (Nat × Nat)
  | .u8 v => some (1, v)
  | .u16 v => some (2, v)
  | .u32 v => some (4, v)
  | .u64 v => some (8, v)
  | .i8 v => some (1, toU 1 v)
  | .i16 v => some (2, toU 2 v)
  | .i32 v => some (4, toU 4 v)
  | .i64 v => some (8, toU 8 v)
  | .f32 bits => some (4, bits)
  | .f64 bits => some (8, bits)
  | .varlen => none

/-- Serialize one field. -/
def encField (o : BinOrder) (f : Field) : Option (List Nat) :=
  (f.wire).map (fun p => encBytes o p.1 p.2)

/-- Serialize a whole fixed-layout value, field by field in order;
fails if any field has no fixed-width representation. -/
def encodeVal (o : BinOrder) : List Field → Option (List Nat)
  | [] => some []
  | f :: fs =>
    match encField o f, encodeVal o fs with
    | some bs, some rest => some (bs ++ rest)
    | _, _ => none

/-- Rebuild a field of type `t` from its unsigned wire value. -/
def mkField : Ty → Nat → Option Field
  | .u8, n => some (.u8 n)
  | .u16, n => some (.u16 n)
  | .u32, n => some (.u32 n)
  | .u64, n => some (.u64 n)
  | .i8, n => some (.i8 (fromU 1 n))
  | .i16, n => some (.i16 (fromU 2 n))
  | .i32, n => some (.i32 (fromU 4 n))
  | .i64, n => some (.i64 (fromU 8 n))
  | .f32, n => some (.f32 n)
  | .f64, n => some (.f64 n)
  | .varlen, _ => none

/-- Decode one field of type `t` from its bytes. -/
def decField (o : BinOrder) (t : Ty) (bs : List Nat) : Option Field :=
  mkField t (decBytes o bs)

/-- `binary.dataSize`: total encoded size of a layout, `none` when some
field has no fixed-width representation. -/
def dataSize : List Ty → Option Nat
  | [] => some 0
  | t :: ts =>
    match t.width, dataSize ts with
    | some w, some s => some (w + s)
    | _, _ => none

/-- Decode a layout field-by-field from a byte list, consuming each field's
width; fails on a variable-width field or too few bytes. -/
def decodeFields (o : BinOrder) : List Ty → List Nat → Option (List Field)
  | [], _ => some []
  | t :: ts, bs =>
    match t.width with
    | none => none
    | some w =>
      if bs.length < w then none
      else
        match decField o t (bs.take w), decodeFields o ts (bs.drop w) with
        | some f, some fs => some (f :: fs)
        | _, _ => none

/-- `WriteData(order, data)`: serialize with `binary.Write` into a scratch
buffer, then a sequential `Write` of those bytes; the returned error is
either the encoding failure or the one from `Write`. -/
def WriteData (b : BufferIo) (o : BinOrder) (fs : List Field) : GoRes Unit :=
  match encodeVal o fs with
  | none => .ret () (some .errEncoding) b
  | some bs =>
    match Write b bs with
    | .ret _ e b2 => .ret () e b2
    | .panicked => .panicked

/-- `ReadData(order, data)`: `binary.Read` over `b.buf[b.off:]` (the slice
panics if the cursor were outside `[0, length]`); checks the layout's fixed
size, then that enough bytes are available, then decodes into the target;
the receiver — region and cursor — is never modified. -/
def ReadData (b : BufferIo) (o : BinOrder) (fs : List Field) : GoRes (List Field) :=
  if b.off < 0 ∨ Size b < b.off then .panicked
  else
    match dataSize (fs.map Field.ty) with
    | none => .ret fs (some .errEncoding) b
    | some sz =>
      if (b.buf.drop b.off.toNat).length < sz then .ret fs (some .errEncoding) b
      else
        match decodeFields o (fs.map Field.ty) (b.buf.drop b.off.toNat) with
        | some fs2 => .ret fs2 none b
        | none => .ret fs (some .errEncoding) b

/-- `WriteDataLE` / `WriteDataBE` / `ReadDataLE` / `ReadDataBE`: the
byte-order-specialized wrappers fix the order argument. -/
def WriteDataLE (b : BufferIo) (fs : List Field) : GoRes Unit := WriteData b .little fs

def WriteDataBE (b : BufferIo) (fs : List Field) : GoRes Unit := WriteData b .big fs

def ReadDataLE (b : BufferIo) (fs : List Field) : GoRes (List Field) := ReadData b .little fs

def ReadDataBE (b : BufferIo) (fs : List Field) : GoRes (List Field) := ReadData b .big fs

end Bufferio

namespace Bufferio

/- Helper lemmas about the copy primitive. -/

lemma copyInto_length (dst src : List Nat) (i : Nat) (h : i ≤ dst.length) :
    (copyInto dst i src).length = dst.length := by
  simp [copyInto]
  omega

lemma copyInto_eq_take_append (dst src : List Nat) (i : Nat) (h : i ≤ dst.length) :
    copyInto dst i src =
      dst.take i ++ src.take (min src.length (dst.length - i))
        ++ dst.drop (i + min src.length (dst.length - i)) := by
  simp only [copyInto]
  rcases le_or_lt src.length (dst.length - i) with hle | hlt
  · rw [min_eq_left hle, List.take_of_length_le hle, List.take_length]
  · rw [min_eq_right (le_of_lt hlt)]
    have h1 : dst.length ≤ i + src.length := by omega
    have h2 : i + (dst.length - i) = dst.length := by omega
    rw [h2, List.drop_eq_nil_of_le h1, List.drop_eq_nil_of_le (le_refl dst.length)]

lemma copyInto_zero (dst src : List Nat) :
    copyInto dst 0 src =
      src.take (min dst.length src.length) ++ dst.drop (min dst.length src.length) := by
  rcases le_or_lt src.length dst.length with hle | hlt
  · rw [min_eq_right hle]
    simp [copyInto, List.take_of_length_le hle]
  · rw [min_eq_left (le_of_lt hlt)]
    have h1 : dst.length ≤ src.length := le_of_lt hlt
    simp [copyInto, List.drop_eq_nil_of_le h1]

/- Helper lemmas about the positional operations on in-range offsets. -/

lemma WriteAt_ok (b : BufferIo) (p : List Nat) (off : Int)
    (h0 : 0 ≤ off) (hN : off < Size b) :
    WriteAt b p off =
      .ret (min p.length (b.buf.length - off.toNat)) none
        { b with buf := copyInto b.buf off.toNat p } := by
  have h1 : ¬ Size b ≤ off := not_le.mpr hN
  have h2 : ¬ off < 0 := not_lt.mpr h0
  simp [WriteAt, h1, h2]

lemma ReadAt_ok (b : BufferIo) (p : List Nat) (off : Int)
    (h0 : 0 ≤ off) (hN : off < Size b) :
    ReadAt b p off =
      .ret (min p.length (b.buf.drop off.toNat).length,
            copyInto p 0 (b.buf.drop off.toNat)) none b := by
  have h1 : ¬ Size b ≤ off := not_le.mpr hN
  have h2 : ¬ off < 0 := not_lt.mpr h0
  simp [ReadAt, h1, h2]

lemma toNat_lt_of_lt_size (b : BufferIo) (off : Int)
    (h0 : 0 ≤ off) (hN : off < Size b) : off.toNat < b.buf.length := by
  simp only [Size] at hN
  omega

/-- C3: for `0 ≤ offset < N`, `WriteAt(data, offset)` copies exactly
`min(len(data), N - offset)` bytes of `data` into the region starting at
`offset`, returns that count with no error, and does not move the cursor;
`ReadAt(dst, offset)` copies exactly `min(len(dst), N - offset)` bytes of
the region starting at `offset` into `dst`, returns that count with no
error, and leaves the buffer untouched; a partial copy is not an error. -/
theorem C3_positional_in_range (b : BufferIo) (off : Int) (p dst : List Nat)
    (h0 : 0 ≤ off) (hN : off < Size b) :
    (WriteAt b p off =
      .ret (min p.length (b.buf.length - off.toNat)) none
        { b with buf :=
            b.buf.take off.toNat
              ++ p.take (min p.length (b.buf.length - off.toNat))
              ++ b.buf.drop (off.toNat + min p.length (b.buf.length - off.toNat)) }) ∧
    (ReadAt b dst off =
      .ret (min dst.length (b.buf.length - off.toNat),
            (b.buf.drop off.toNat).take (min dst.length (b.buf.length - off.toNat))
              ++ dst.drop (min dst.length (b.buf.length - off.toNat))) none b) := by
  have hlt := toNat_lt_of_lt_size b off h0 hN
  have hle : off.toNat ≤ b.buf.length := le_of_lt hlt
  constructor
  · rw [WriteAt_ok b p off h0 hN,
      copyInto_eq_take_append b.buf p off.toNat hle]
  · rw [ReadAt_ok b dst off h0 hN, copyInto_zero dst (b.buf.drop off.toNat)]
    have hlen : (b.buf.drop off.toNat).length = b.buf.length - off.toNat :=
      List.length_drop off.toNat b.buf
    rw [hlen]

/-- C3 witness: a 4-byte buffer, offset 1, overflowing 4-byte write and a
2-byte read. -/
theorem C3_positional_in_range_witness :
    (0 : Int) ≤ 1 ∧ (1 : Int) < Size (NewBufferIo [1, 2, 3, 4]) ∧
    (WriteAt (NewBufferIo [1, 2, 3, 4]) [9, 8, 7, 6] 1 =
      .ret (min 4 3) none
        { (NewBufferIo [1, 2, 3, 4]) with buf :=
            ([1, 2, 3, 4].take 1 ++ [9, 8, 7, 6].take (min 4 3)
              ++ [1, 2, 3, 4].drop (1 + min 4 3)) }) ∧
    (ReadAt (NewBufferIo [1, 2, 3, 4]) [0, 0] 1 =
      .ret (min 2 3, ([1, 2, 3, 4].drop 1).take (min 2 3) ++ [0, 0].drop (min 2 3))
        none (NewBufferIo [1, 2, 3, 4])) := by
  refine ⟨by decide, by decide, ?_⟩
  exact C3_positional_in_range (NewBufferIo [1, 2, 3, 4]) 1 [9, 8, 7, 6] [0, 0]
    (by decide) (by decide)

/-- C4: for `offset >= N`, `WriteAt` returns 0 bytes and the `Overrun`
error, `ReadAt` returns 0 bytes and the `EndOfData` error, and in both
cases the buffer (contents and cursor) and the destination are unchanged,
for any data, including empty data. -/
theorem C4_positional_past_end (b : BufferIo) (off : Int) (p dst : List Nat)
    (h : Size b ≤ off) :
    (∃ e, WriteAt b p off = .ret 0 (some e) b ∧ e.kind = .Overrun) ∧
    (∃ e, ReadAt b dst off = .ret (0, dst) (some e) b ∧ e.kind = .EndOfData) := by
  refine ⟨⟨.errOverrun, ?_, rfl⟩, ⟨.errEOF, ?_, rfl⟩⟩ <;> simp [WriteAt, ReadAt, h]

/-- C4 witness: a 2-byte buffer probed at offset 2 with empty write data. -/
theorem C4_positional_past_end_witness :
    Size (NewBufferIo [7, 7]) ≤ 2 ∧
    ((∃ e, WriteAt (NewBufferIo [7, 7]) [] 2 = .ret 0 (some e) (NewBufferIo [7, 7]) ∧
        e.kind = .Overrun) ∧
     (∃ e, ReadAt (NewBufferIo [7, 7]) [0] 2 = .ret (0, [0]) (some e) (NewBufferIo [7, 7]) ∧
        e.kind = .EndOfData)) :=
  ⟨by decide, C4_positional_past_end (NewBufferIo [7, 7]) 2 [] [0] (by decide)⟩

/-- C10: with a non-empty buffer, a negative offset passes the only guard
(`offset >= length`) of `WriteAt`/`ReadAt` and reaches the slice
expression on the backing region, which panics at run time instead of
returning an `Overrun`/`EndOfData` error. -/
theorem C10_negative_offset_panics (b : BufferIo) (off : Int) (p dst : List Nat)
    (hne : b.buf ≠ []) (hneg : off < 0) :
    WriteAt b p off = .panicked ∧ ReadAt b dst off = .panicked := by
  have hpos : 0 < b.buf.length := List.length_pos.mpr hne
  have h1 : ¬ Size b ≤ off := by simp only [Size]; omega
  simp [WriteAt, ReadAt, h1, hneg]

/-- C10 witness: a 1-byte buffer at offset -1. -/
theorem C10_negative_offset_panics_witness :
    (NewBufferIo [5]).buf ≠ [] ∧ (-1 : Int) < 0 ∧
    WriteAt (NewBufferIo [5]) [2] (-1) = .panicked ∧
    ReadAt (NewBufferIo [5]) [0] (-1) = .panicked :=
  ⟨by decide, by decide,
    (C10_negative_offset_panics (NewBufferIo [5]) (-1) [2] [0] (by decide) (by decide)).1,
    (C10_negative_offset_panics (NewBufferIo [5]) (-1) [2] [0] (by decide) (by decide)).2⟩

lemma seekTo_cases (b : BufferIo) (cand : Int) :
    (Size b ≤ cand → seekTo b cand = .ret 0 (some .errOverrun) b) ∧
    (cand < Size b → cand < 0 → seekTo b cand = .ret 0 (some .errNegativePosition) b) ∧
    (0 ≤ cand → cand < Size b → seekTo b cand = .ret cand none { b with off := cand }) := by
  refine ⟨fun h => ?_, fun h1 h2 => ?_, fun h1 h2 => ?_⟩
  · simp [seekTo, h]
  · simp [seekTo, not_le.mpr h1, h2]
  · simp [seekTo, not_le.mpr h2, not_lt.mpr h1]

/-- C5: `Seek(offset, mode)` validation order — an unknown mode fails with
an `InvalidArgument` error; the relative-to-end mode (2) always fails with
`Overrun` regardless of offset; otherwise the candidate is `offset`
(mode 0) or `cursor + offset` (mode 1), and `candidate >= N` fails with
`Overrun`, `candidate < 0` fails with `InvalidArgument`, and otherwise the
cursor is set to the candidate, which is returned with no error. -/
theorem C5_seek_cases (b : BufferIo) (offset whence : Int) :
    (whence ≠ 0 → whence ≠ 1 → whence ≠ 2 →
      ∃ e, Seek b offset whence = .ret 0 (some e) b ∧ e.kind = .InvalidArgument) ∧
    (whence = 2 →
      ∃ e, Seek b offset whence = .ret 0 (some e) b ∧ e.kind = .Overrun) ∧
    (∀ cand : Int,
      (whence = 0 ∧ cand = offset) ∨ (whence = 1 ∧ cand = b.off + offset) →
      (Size b ≤ cand →
        ∃ e, Seek b offset whence = .ret 0 (some e) b ∧ e.kind = .Overrun) ∧
      (cand < Size b → cand < 0 →
        ∃ e, Seek b offset whence = .ret 0 (some e) b ∧ e.kind = .InvalidArgument) ∧
      (0 ≤ cand → cand < Size b →
        Seek b offset whence = .ret cand none { b with off := cand })) := by
  refine ⟨fun h0 h1 h2 => ⟨.errInvalidWhence, by simp [Seek, h0, h1, h2], rfl⟩,
    fun h2 => ⟨.errOverrun, by subst h2; norm_num [Seek], rfl⟩, ?_⟩
  rintro cand h
  have hs : Seek b offset whence = seekTo b cand := by
    rcases h with ⟨rfl, hc⟩ | ⟨rfl, hc⟩
    · rw [hc]; simp [Seek]
    · rw [hc]; norm_num [Seek]
  exact ⟨fun h => ⟨.errOverrun, by rw [hs, (seekTo_cases b cand).1 h], rfl⟩,
    fun h1 h2 => ⟨.errNegativePosition,
      by rw [hs, (seekTo_cases b cand).2.1 h1 h2], rfl⟩,
    fun h1 h2 => by rw [hs, (seekTo_cases b cand).2.2 h1 h2]⟩

/-- C5 witness: an absolute seek to 1 inside a 3-byte buffer moves the
cursor there and returns it. -/
theorem C5_seek_cases_witness :
    Seek (NewBufferIo [9, 9, 9]) 1 0 = .ret 1 none { (NewBufferIo [9, 9, 9]) with off := 1 } :=
  ((C5_seek_cases (NewBufferIo [9, 9, 9]) 1 0).2.2 1 (Or.inl ⟨rfl, rfl⟩)).2.2
    (by decide) (by decide)

/-- C6: for `0 ≤ offset < N`, `WriteAt(data, offset)` followed by `ReadAt`
at the same offset into a destination of the same size returns the bytes
written, truncated to `N - offset` bytes when `data` overflows the region
(the common count is `min(len(data), N - offset)`). -/
theorem C6_writeAt_readAt_roundtrip (b : BufferIo) (off : Int) (data : List Nat)
    (h0 : 0 ≤ off) (hN : off < Size b) :
    ∃ n b2 dst2,
      WriteAt b data off = .ret n none b2 ∧
      ReadAt b2 (List.replicate data.length 0) off = .ret (n, dst2) none b2 ∧
      n = min data.length (b.buf.length - off.toNat) ∧
      dst2.take n = data.take n := by
  have hlt := toNat_lt_of_lt_size b off h0 hN
  have hle : off.toNat ≤ b.buf.length := le_of_lt hlt
  have hlen2 : (copyInto b.buf off.toNat data).length = b.buf.length :=
    copyInto_length b.buf data off.toNat hle
  have hN2 : off < Size { b with buf := copyInto b.buf off.toNat data } := by
    simp only [Size, hlen2]
    exact hN
  have htl : (b.buf.take off.toNat).length = off.toNat := List.length_take_of_le hle
  have hltk : (data.take (min data.length (b.buf.length - off.toNat))).length
      = min data.length (b.buf.length - off.toNat) :=
    List.length_take_of_le (min_le_left _ _)
  have hdrop : (copyInto b.buf off.toNat data).drop off.toNat
      = data.take (min data.length (b.buf.length - off.toNat))
        ++ b.buf.drop (off.toNat + min data.length (b.buf.length - off.toNat)) := by
    rw [copyInto_eq_take_append b.buf data off.toNat hle, List.append_assoc,
      List.drop_left' htl]
  have hdl : ((copyInto b.buf off.toNat data).drop off.toNat).length
      = b.buf.length - off.toNat := by
    rw [List.length_drop, hlen2]
  have htake : ((copyInto b.buf off.toNat data).drop off.toNat).take
        (min data.length (b.buf.length - off.toNat))
      = data.take (min data.length (b.buf.length - off.toNat)) := by
    rw [hdrop, List.take_append_of_le_length (le_of_eq hltk.symm),
      List.take_take, min_self]
  refine ⟨min data.length (b.buf.length - off.toNat),
    { b with buf := copyInto b.buf off.toNat data },
    data.take (min data.length (b.buf.length - off.toNat))
      ++ (List.replicate data.length 0).drop (min data.length (b.buf.length - off.toNat)),
    WriteAt_ok b data off h0 hN, ?_, rfl, ?_⟩
  · rw [ReadAt_ok _ (List.replicate data.length 0) off h0 hN2]
    simp only [copyInto_zero, List.length_replicate, hdl, htake]
  · rw [List.take_append_of_le_length (le_of_eq hltk.symm), List.take_take, min_self]

end Bufferio

namespace Bufferio

/-- The cursor invariant of the data model: `0 <= off <= N`. -/
def inv (b : BufferIo) : Prop := 0 ≤ b.off ∧ b.off ≤ Size b

instance decInv (b : BufferIo) : Decidable (inv b) :=
  inferInstanceAs (Decidable (0 ≤ b.off ∧ b.off ≤ Size b))

/-- The receiver state after a call; a panic aborts execution, so it
constrains no post-state and is mapped to the pre-state. -/
def afterRes {α : Type} (r : GoRes α) (b : BufferIo) : BufferIo :=
  match r with
  | .ret _ _ b2 => b2
  | .panicked => b

/-- One API operation (the arguments of one call). -/
inductive Op where
  | opWrite (p : List Nat)
  | opRead (p : List Nat)
  | opWriteAt (p : List Nat) (off : Int)
  | opReadAt (p : List Nat) (off : Int)
  | opSeek (offset whence : Int)
  | opWriteData (o : BinOrder) (fs : List Field)
  | opReadData (o : BinOrder) (fs : List Field)
  | opReset
deriving DecidableEq

/-- The buffer state after performing one operation. -/
def applyOp (op : Op) (b : BufferIo) : BufferIo :=
  match op with
  | .opWrite p => afterRes (Write b p) b
  | .opRead p => afterRes (Read b p) b
  | .opWriteAt p off => afterRes (WriteAt b p off) b
  | .opReadAt p off => afterRes (ReadAt b p off) b
  | .opSeek offset whence => afterRes (Seek b offset whence) b
  | .opWriteData o fs => afterRes (WriteData b o fs) b
  | .opReadData o fs => afterRes (ReadData b o fs) b
  | .opReset => Reset b

lemma afterWriteAt (b : BufferIo) (p : List Nat) (off : Int) (h : inv b) :
    inv (afterRes (WriteAt b p off) b) ∧ Size (afterRes (WriteAt b p off) b) = Size b := by
  by_cases h1 : Size b ≤ off
  · simp only [WriteAt, if_pos h1, afterRes]
    exact ⟨h, by simp [Size]⟩
  by_cases h2 : off < 0
  · simp only [WriteAt, if_neg h1, if_pos h2, afterRes]
    exact ⟨h, by simp [Size]⟩
  · have hle : off.toNat ≤ b.buf.length := by
      simp only [Size, not_le] at h1
      omega
    have hlenc : (copyInto b.buf off.toNat p).length = b.buf.length :=
      copyInto_length b.buf p off.toNat hle
    simp only [WriteAt, if_neg h1, if_neg h2, afterRes]
    refine ⟨⟨h.1, ?_⟩, ?_⟩
    · simpa only [Size, hlenc] using h.2
    · simp only [Size, hlenc]

lemma afterWrite (b : BufferIo) (p : List Nat) (h : inv b) :
    inv (afterRes (Write b p) b) ∧ Size (afterRes (Write b p) b) = Size b := by
  by_cases h1 : Size b ≤ b.off
  · simp only [Write, WriteAt, if_pos h1, afterRes]
    exact ⟨h, by simp [Size]⟩
  · have hN : b.off < Size b := not_le.mp h1
    have hW := WriteAt_ok b p b.off h.1 hN
    have hle : b.off.toNat ≤ b.buf.length := by
      simp only [Size] at hN
      omega
    have hlenc : (copyInto b.buf b.off.toNat p).length = b.buf.length :=
      copyInto_length b.buf p b.off.toNat hle
    have hmin : min p.length (b.buf.length - b.off.toNat) ≤ b.buf.length - b.off.toNat :=
      min_le_right _ _
    have hNn : b.off < (b.buf.length : Int) := hN
    have h01 := h.1
    simp only [Write, hW, afterRes]
    refine ⟨⟨?_, ?_⟩, ?_⟩
    · show (0 : Int) ≤ b.off + ((min p.length (b.buf.length - b.off.toNat) : Nat) : Int)
      omega
    · show b.off + ((min p.length (b.buf.length - b.off.toNat) : Nat) : Int)
        ≤ ((copyInto b.buf b.off.toNat p).length : Int)
      rw [hlenc]
      omega
    · show ((copyInto b.buf b.off.toNat p).length : Int) = ((b.buf.length : Nat) : Int)
      rw [hlenc]

lemma ReadAt_state (b : BufferIo) (p : List Nat) (off : Int) :
    afterRes (ReadAt b p off) b = b := by
  unfold ReadAt
  split
  · rfl
  split
  · rfl
  · rfl

lemma afterRead (b : BufferIo) (p : List Nat) (h : inv b) :
    inv (afterRes (Read b p) b) ∧ Size (afterRes (Read b p) b) = Size b := by
  by_cases h1 : Size b ≤ b.off
  · simp only [Read, ReadAt, if_pos h1, afterRes]
    exact ⟨h, by simp [Size]⟩
  · have hN : b.off < Size b := not_le.mp h1
    have hR := ReadAt_ok b p b.off h.1 hN
    have hmin : min p.length (b.buf.drop b.off.toNat).length ≤ b.buf.length - b.off.toNat := by
      rw [List.length_drop]
      exact min_le_right _ _
    have hNn : b.off < (b.buf.length : Int) := hN
    have h01 := h.1
    simp only [Read, hR, afterRes]
    refine ⟨⟨?_, ?_⟩, ?_⟩
    · show (0 : Int) ≤ b.off + ((min p.length (b.buf.drop b.off.toNat).length : Nat) : Int)
      omega
    · show b.off + ((min p.length (b.buf.drop b.off.toNat).length : Nat) : Int)
        ≤ ((b.buf.length : Nat) : Int)
      omega
    · show ((b.buf.length : Nat) : Int) = ((b.buf.length : Nat) : Int)
      rfl

lemma afterSeekTo (b : BufferIo) (pos : Int) (h : inv b) :
    inv (afterRes (seekTo b pos) b) ∧ Size (afterRes (seekTo b pos) b) = Size b := by
  by_cases h1 : Size b ≤ pos
  · simp only [seekTo, if_pos h1, afterRes]
    exact ⟨h, by simp [Size]⟩
  by_cases h2 : pos < 0
  · simp only [seekTo, if_neg h1, if_pos h2, afterRes]
    exact ⟨h, by simp [Size]⟩
  · simp only [seekTo, if_neg h1, if_neg h2, afterRes]
    exact ⟨⟨not_lt.mp h2, le_of_lt (not_le.mp h1)⟩, by simp [Size]⟩

lemma afterSeek (b : BufferIo) (offset whence : Int) (h : inv b) :
    inv (afterRes (Seek b offset whence) b) ∧
      Size (afterRes (Seek b offset whence) b) = Size b := by
  by_cases h0 : whence = 0
  · simp only [Seek, if_pos h0]
    exact afterSeekTo b offset h
  by_cases h1 : whence = 1
  · simp only [Seek, if_neg h0, if_pos h1]
    exact afterSeekTo b (b.off + offset) h
  by_cases h2 : whence = 2
  · simp only [Seek, if_neg h0, if_neg h1, if_pos h2, afterRes]
    exact ⟨h, by simp [Size]⟩
  · simp only [Seek, if_neg h0, if_neg h1, if_neg h2, afterRes]
    exact ⟨h, by simp [Size]⟩

lemma afterWriteData (b : BufferIo) (o : BinOrder) (fs : List Field) (h : inv b) :
    inv (afterRes (WriteData b o fs) b) ∧
      Size (afterRes (WriteData b o fs) b) = Size b := by
  cases henc : encodeVal o fs with
  | none =>
    simp only [WriteData, henc, afterRes]
    exact ⟨h, by simp [Size]⟩
  | some bs =>
    have hw := afterWrite b bs h
    cases hW : Write b bs with
    | ret v e b2 =>
      simp only [WriteData, henc, hW, afterRes]
      simpa only [hW, afterRes] using hw
    | panicked =>
      simp only [WriteData, henc, hW, afterRes]
      exact ⟨h, by simp [Size]⟩

lemma ReadData_state (b : BufferIo) (o : BinOrder) (fs : List Field) :
    afterRes (ReadData b o fs) b = b := by
  unfold ReadData
  split
  · rfl
  · split
    · rfl
    split
    · rfl
    split
    · rfl
    · rfl

/-- C6 witness: a 3-byte buffer, offset 1, an overflowing 3-byte write
read back at the same offset. -/
theorem C6_writeAt_readAt_roundtrip_witness :
    (0 : Int) ≤ 1 ∧ (1 : Int) < Size (NewBufferIo [1, 2, 3]) ∧
    ∃ n b2 dst2,
      WriteAt (NewBufferIo [1, 2, 3]) [9, 9, 9] 1 = .ret n none b2 ∧
      ReadAt b2 (List.replicate ([9, 9, 9] : List Nat).length 0) 1
        = .ret (n, dst2) none b2 ∧
      n = min ([9, 9, 9] : List Nat).length
          ((NewBufferIo [1, 2, 3]).buf.length - (1 : Int).toNat) ∧
      dst2.take n = ([9, 9, 9] : List Nat).take n :=
  ⟨by decide, by decide,
    C6_writeAt_readAt_roundtrip (NewBufferIo [1, 2, 3]) 1 [9, 9, 9]
      (by decide) (by decide)⟩

/-- C2: the invariant `0 <= cursor <= N` holds after construction and is
preserved by every operation (`Write`, `Read`, `WriteAt`, `ReadAt`,
`Seek`, `WriteData`, `ReadData`, `Reset`), and the length `N` never
changes after construction. -/
theorem C2_cursor_invariant :
    (∀ n, inv (NewBufferIoMake n)) ∧ (∀ l, inv (NewBufferIo l)) ∧
    (∀ op b, inv b → inv (applyOp op b) ∧ Size (applyOp op b) = Size b) := by
  refine ⟨fun n => ⟨le_refl 0, ?_⟩, fun l => ⟨le_refl 0, ?_⟩, ?_⟩
  · simp [NewBufferIoMake, Size]
  · simp [NewBufferIo, Size]
  intro op b h
  cases op with
  | opWrite p => exact afterWrite b p h
  | opRead p => exact afterRead b p h
  | opWriteAt p off => exact afterWriteAt b p off h
  | opReadAt p off =>
    simp only [applyOp, ReadAt_state]
    exact ⟨h, by simp [Size]⟩
  | opSeek offset whence => exact afterSeek b offset whence h
  | opWriteData o fs => exact afterWriteData b o fs h
  | opReadData o fs =>
    simp only [applyOp, ReadData_state]
    exact ⟨h, by simp [Size]⟩
  | opReset => exact ⟨⟨le_refl 0, h.1.trans h.2⟩, rfl⟩

/-- C2 witness: the invariant holds for a fresh 2-byte buffer and is kept
by a 1-byte sequential write. -/
theorem C2_cursor_invariant_witness :
    inv (NewBufferIo [3, 4]) ∧
    (inv (applyOp (.opWrite [7]) (NewBufferIo [3, 4])) ∧
      Size (applyOp (.opWrite [7]) (NewBufferIo [3, 4])) = Size (NewBufferIo [3, 4])) :=
  ⟨by decide, C2_cursor_invariant.2.2 (.opWrite [7]) (NewBufferIo [3, 4]) (by decide)⟩

end Bufferio

namespace Bufferio

/-- Total size of a list of chunks. -/
def chunksSize (cs : List (List Nat)) : Nat := (cs.map List.length).sum

/-- Sequentially `Write` each chunk in order. -/
def writeChunks (b : BufferIo) : List (List Nat) → BufferIo
  | [] => b
  | c :: cs => writeChunks (afterRes (Write b c) b) cs

/-- Sequentially `Read` into fresh destinations of the given sizes,
collecting the bytes actually transferred (the first `n` of each
destination). -/
def readChunks (b : BufferIo) : List Nat → List Nat × BufferIo
  | [] => ([], b)
  | d :: ds =>
    match Read b (List.replicate d 0) with
    | .ret (n, p2) _ b2 =>
      ((p2.take n ++ (readChunks b2 ds).1), (readChunks b2 ds).2)
    | .panicked => ([], b)

lemma Write_fill (b : BufferIo) (k : Nat) (c : List Nat)
    (hoff : b.off = (k : Int)) (h1 : k ≤ b.buf.length)
    (h2 : k + c.length ≤ b.buf.length) :
    (afterRes (Write b c) b).buf = b.buf.take k ++ c ++ b.buf.drop (k + c.length) ∧
    (afterRes (Write b c) b).off = ((k + c.length : Nat) : Int) := by
  rcases eq_or_lt_of_le h1 with heq | hlt
  · have hc : c = [] := by
      have : c.length = 0 := by omega
      exact List.eq_nil_of_length_eq_zero this
    subst hc
    have hsz : Size b ≤ b.off := by
      simp only [Size, hoff]
      omega
    simp only [Write, WriteAt, if_pos hsz, afterRes]
    constructor
    · simp only [List.length_nil, Nat.add_zero, List.append_nil]
      exact (List.take_append_drop k b.buf).symm
    · simp only [List.length_nil, Nat.add_zero]
      exact hoff
  · have h0 : 0 ≤ b.off := by
      rw [hoff]
      exact_mod_cast Nat.zero_le k
    have hN : b.off < Size b := by
      simp only [Size, hoff]
      exact_mod_cast hlt
    have hW := WriteAt_ok b c b.off h0 hN
    have htn : b.off.toNat = k := by omega
    have hmin : min c.length (b.buf.length - k) = c.length := min_eq_left (by omega)
    simp only [Write, hW, afterRes]
    constructor
    · show copyInto b.buf b.off.toNat c = _
      rw [htn, copyInto_eq_take_append b.buf c k h1, hmin, List.take_length]
    · show b.off + ((min c.length (b.buf.length - b.off.toNat) : Nat) : Int)
        = ((k + c.length : Nat) : Int)
      rw [htn, hmin, hoff]
      push_cast
      ring

lemma writeChunks_spec (cs : List (List Nat)) :
    ∀ (b : BufferIo) (k : Nat), b.off = (k : Int) → k ≤ b.buf.length →
    k + chunksSize cs ≤ b.buf.length →
    (writeChunks b cs).buf
        = b.buf.take k ++ cs.flatten ++ b.buf.drop (k + chunksSize cs) ∧
    (writeChunks b cs).off = ((k + chunksSize cs : Nat) : Int) := by
  induction cs with
  | nil =>
    intro b k hoff h1 h2
    constructor
    · simp only [writeChunks, chunksSize, List.map_nil, List.sum_nil, Nat.add_zero,
        List.flatten_nil, List.append_nil]
      exact (List.take_append_drop k b.buf).symm
    · simpa only [writeChunks, chunksSize, List.map_nil, List.sum_nil,
        Nat.add_zero] using hoff
  | cons c cs ih =>
    intro b k hoff h1 h2
    have hcs : chunksSize (c :: cs) = c.length + chunksSize cs := by
      simp [chunksSize]
    rw [hcs] at h2
    have h2c : k + c.length ≤ b.buf.length := by omega
    obtain ⟨hbuf, hoff2⟩ := Write_fill b k c hoff h1 h2c
    have htlk : (b.buf.take k).length = k := List.length_take_of_le h1
    have hA : (b.buf.take k ++ c).length = k + c.length := by
      rw [List.length_append, htlk]
    have hlen2 : (afterRes (Write b c) b).buf.length = b.buf.length := by
      rw [hbuf]
      simp only [List.length_append, List.length_drop, htlk]
      omega
    obtain ⟨hbuf3, hoff3⟩ := ih (afterRes (Write b c) b) (k + c.length) hoff2
      (by omega) (by rw [hlen2]; omega)
    constructor
    · rw [writeChunks, hbuf3]
      have htake : (afterRes (Write b c) b).buf.take (k + c.length)
          = b.buf.take k ++ c := by
        rw [hbuf]
        exact List.take_left' hA
      have hdropA : (afterRes (Write b c) b).buf.drop (k + c.length + chunksSize cs)
          = b.buf.drop (k + (c.length + chunksSize cs)) := by
        rw [hbuf, ← List.drop_drop, List.drop_left' hA, List.drop_drop]
        congr 1
        omega
      rw [htake, hdropA, hcs, List.flatten_cons]
      simp only [List.append_assoc]
    · rw [writeChunks, hoff3, hcs]
      congr 1
      omega

lemma Read_fill (b : BufferIo) (k d : Nat)
    (hoff : b.off = (k : Int)) (h1 : k ≤ b.buf.length)
    (h2 : k + d ≤ b.buf.length) :
    ∃ n p2 e b2, Read b (List.replicate d 0) = .ret (n, p2) e b2 ∧
      p2.take n = (b.buf.drop k).take d ∧ b2.buf = b.buf ∧
      b2.off = ((k + d : Nat) : Int) := by
  rcases eq_or_lt_of_le h1 with heq | hlt
  · have hd : d = 0 := by omega
    subst hd
    have hsz : Size b ≤ b.off := by
      simp only [Size, hoff]
      omega
    refine ⟨0, List.replicate 0 0, some .errEOF, b, ?_, by simp, rfl, ?_⟩
    · simp [Read, ReadAt, hsz]
    · simpa using hoff
  · have h0 : 0 ≤ b.off := by
      rw [hoff]
      exact_mod_cast Nat.zero_le k
    have hN : b.off < Size b := by
      simp only [Size, hoff]
      exact_mod_cast hlt
    have hR := ReadAt_ok b (List.replicate d 0) b.off h0 hN
    have htn : b.off.toNat = k := by omega
    have hmin : min (List.replicate d 0).length (b.buf.drop b.off.toNat).length = d := by
      rw [List.length_replicate, List.length_drop, htn]
      exact min_eq_left (by omega)
    refine ⟨min (List.replicate d 0).length (b.buf.drop b.off.toNat).length,
      copyInto (List.replicate d 0) 0 (b.buf.drop b.off.toNat), none,
      { b with off := b.off
          + ((min (List.replicate d 0).length (b.buf.drop b.off.toNat).length : Nat) : Int) },
      ?_, ?_, rfl, ?_⟩
    · simp only [Read, hR]
    · rw [copyInto_zero, hmin, htn]
      have hdr : (List.replicate d 0).drop d = ([] : List Nat) := by
        simp
      rw [hdr, List.append_nil, List.take_take, min_self]
    · show b.off + _ = _
      rw [hmin, hoff]
      push_cast
      ring

lemma readChunks_spec (ds : List Nat) :
    ∀ (b : BufferIo) (k : Nat), b.off = (k : Int) → k ≤ b.buf.length →
    k + ds.sum ≤ b.buf.length →
    (readChunks b ds).1 = (b.buf.drop k).take ds.sum ∧
    (readChunks b ds).2.buf = b.buf ∧
    (readChunks b ds).2.off = ((k + ds.sum : Nat) : Int) := by
  induction ds with
  | nil =>
    intro b k hoff h1 h2
    refine ⟨by simp [readChunks], by simp [readChunks], ?_⟩
    simpa [readChunks] using hoff
  | cons d ds ih =>
    intro b k hoff h1 h2
    have hsum : (d :: ds).sum = d + ds.sum := List.sum_cons
    rw [hsum] at h2
    obtain ⟨n, p2, e, b2, hr, htk, hb2buf, hb2off⟩ :=
      Read_fill b k d hoff h1 (by omega)
    have hread : readChunks b (d :: ds)
        = ((p2.take n ++ (readChunks b2 ds).1), (readChunks b2 ds).2) := by
      rw [readChunks, hr]
    obtain ⟨ih1, ih2, ih3⟩ := ih b2 (k + d) hb2off
      (by rw [hb2buf]; omega) (by rw [hb2buf]; omega)
    refine ⟨?_, ?_, ?_⟩
    · rw [hread, hsum]
      show p2.take n ++ (readChunks b2 ds).1 = _
      rw [ih1, hb2buf, htk, List.take_add, List.drop_drop]
    · rw [hread]
      show (readChunks b2 ds).2.buf = b.buf
      rw [ih2, hb2buf]
    · rw [hread, hsum]
      show (readChunks b2 ds).2.off = _
      rw [ih3]
      congr 1
      omega

/-- C1: writing chunks `c1, ..., ck` sequentially from cursor 0 into a
buffer of length `N >= total size`, then constructing a buffer from the
written region and reading the same sizes back sequentially, reproduces
exactly the concatenation `c1 ++ ... ++ ck`. -/
theorem C1_sequential_stream_roundtrip (N : Nat) (cs : List (List Nat))
    (h : chunksSize cs ≤ N) :
    (readChunks
        (NewBufferIo ((writeChunks (NewBufferIoMake N) cs).buf.take (chunksSize cs)))
        (cs.map List.length)).1 = cs.flatten := by
  have hflen : cs.flatten.length = chunksSize cs := by
    rw [chunksSize, List.length_flatten]
  have hw := writeChunks_spec cs (NewBufferIoMake N) 0 rfl
    (by simp [NewBufferIoMake]) (by simp [NewBufferIoMake]; omega)
  have hbuf : (writeChunks (NewBufferIoMake N) cs).buf.take (chunksSize cs)
      = cs.flatten := by
    rw [hw.1]
    simp only [NewBufferIoMake, List.take_zero, List.nil_append, Nat.zero_add]
    exact List.take_left' hflen
  rw [hbuf]
  have hsum : (cs.map List.length).sum = chunksSize cs := rfl
  have hr := readChunks_spec (cs.map List.length) (NewBufferIo cs.flatten) 0 rfl
    (by simp) (by simp only [NewBufferIo, Nat.zero_add, hsum, hflen]; exact le_refl _)
  rw [hr.1]
  show (cs.flatten.drop 0).take ((cs.map List.length).sum) = cs.flatten
  rw [List.drop_zero, hsum, ← hflen, List.take_length]

/-- C1 witness: chunks `[1,2]`, `[3]` through a 4-byte window. -/
theorem C1_sequential_stream_roundtrip_witness :
    chunksSize [[1, 2], [3]] ≤ 4 ∧
    (readChunks
        (NewBufferIo ((writeChunks (NewBufferIoMake 4) [[1, 2], [3]]).buf.take
          (chunksSize [[1, 2], [3]])))
        ([[1, 2], [3]].map List.length)).1 = [[1, 2], [3]].flatten :=
  ⟨by decide, C1_sequential_stream_roundtrip 4 [[1, 2], [3]] (by decide)⟩

end Bufferio

namespace Bufferio

lemma encLE_length (w v : Nat) : (encLE w v).length = w := by
  induction w generalizing v with
  | zero => rfl
  | succ w ih => simp [encLE, ih]

lemma pow256 (w : Nat) : (256 : Nat) ^ w = 2 ^ (8 * w) := by
  rw [show (256 : Nat) = 2 ^ 8 by norm_num, ← pow_mul]

lemma decLE_encLE (w v : Nat) : decLE (encLE w v) = v % 256 ^ w := by
  induction w generalizing v with
  | zero => simp [encLE, decLE, Nat.mod_one]
  | succ w ih =>
    rw [encLE, decLE, ih, pow_succ', Nat.mod_mul]

lemma encBytes_length (o : BinOrder) (w v : Nat) : (encBytes o w v).length = w := by
  cases o <;> simp [encBytes, encLE_length]

lemma decBytes_encBytes (o : BinOrder) (w v : Nat) :
    decBytes o (encBytes o w v) = v % 2 ^ (8 * w) := by
  cases o <;> simp [decBytes, encBytes, List.reverse_reverse, decLE_encLE, pow256]

lemma toU_lt (w : Nat) (v : Int) : toU w v < 2 ^ (8 * w) := by
  unfold toU
  have hpos : (0 : Int) < 2 ^ (8 * w) := by positivity
  have h1 : v % (2 : Int) ^ (8 * w) < 2 ^ (8 * w) := Int.emod_lt_of_pos v hpos
  have h2 : 0 ≤ v % (2 : Int) ^ (8 * w) := Int.emod_nonneg v (ne_of_gt hpos)
  have hNI : ((2 ^ (8 * w) : Nat) : Int) = (2 : Int) ^ (8 * w) := by
    push_cast
    ring
  omega

lemma fromU_toU (w : Nat) (hw : 1 ≤ w) (v : Int)
    (hlo : -(2 ^ (8 * w - 1)) ≤ v) (hhi : v < 2 ^ (8 * w - 1)) :
    fromU w (toU w v) = v := by
  have hsplit : (2 : Int) ^ (8 * w) = 2 ^ (8 * w - 1) * 2 := by
    rw [← pow_succ]
    congr 1
    omega
  have hNI : ((2 ^ (8 * w - 1) : Nat) : Int) = (2 : Int) ^ (8 * w - 1) := by
    push_cast
    ring
  have hNI2 : ((2 ^ (8 * w) : Nat) : Int) = (2 : Int) ^ (8 * w) := by
    push_cast
    ring
  have hpos : (0 : Int) < 2 ^ (8 * w) := by positivity
  have hp1 : (0 : Int) < 2 ^ (8 * w - 1) := by positivity
  by_cases h0 : 0 ≤ v
  · have hx : v % (2 : Int) ^ (8 * w) = v := Int.emod_eq_of_lt h0 (by omega)
    unfold fromU toU
    rw [hx]
    split
    · omega
    · exfalso
      next h => omega
  · have hneg : v < 0 := by omega
    have hx : v % (2 : Int) ^ (8 * w) = v + 2 ^ (8 * w) := by
      have hmm := @Int.add_mul_emod_self_left v ((2 : Int) ^ (8 * w)) 1
      rw [mul_one] at hmm
      rw [← hmm]
      exact Int.emod_eq_of_lt (by omega) (by omega)
    unfold fromU toU
    rw [hx]
    split
    · exfalso
      next h => omega
    · next h => omega

/-- A field is well formed when its value lies in the range of its Go type
(always true of a real Go value of that type); `varlen` has no fixed-width
representation, so it is never well formed. -/
def Field.wf : Field → Prop
  | .u8 v => v < 2 ^ 8
  | .u16 v => v < 2 ^ 16
  | .u32 v => v < 2 ^ 32
  | .u64 v => v < 2 ^ 64
  | .i8 v => -(2 ^ 7) ≤ v ∧ v < 2 ^ 7
  | .i16 v => -(2 ^ 15) ≤ v ∧ v < 2 ^ 15
  | .i32 v => -(2 ^ 31) ≤ v ∧ v < 2 ^ 31
  | .i64 v => -(2 ^ 63) ≤ v ∧ v < 2 ^ 63
  | .f32 bits => bits < 2 ^ 32
  | .f64 bits => bits < 2 ^ 64
  | .varlen => False

instance instDecidableWf : (f : Field) → Decidable f.wf
  | .u8 v => inferInstanceAs (Decidable (v < 2 ^ 8))
  | .u16 v => inferInstanceAs (Decidable (v < 2 ^ 16))
  | .u32 v => inferInstanceAs (Decidable (v < 2 ^ 32))
  | .u64 v => inferInstanceAs (Decidable (v < 2 ^ 64))
  | .i8 v => inferInstanceAs (Decidable (-(2 ^ 7) ≤ v ∧ v < 2 ^ 7))
  | .i16 v => inferInstanceAs (Decidable (-(2 ^ 15) ≤ v ∧ v < 2 ^ 15))
  | .i32 v => inferInstanceAs (Decidable (-(2 ^ 31) ≤ v ∧ v < 2 ^ 31))
  | .i64 v => inferInstanceAs (Decidable (-(2 ^ 63) ≤ v ∧ v < 2 ^ 63))
  | .f32 bits => inferInstanceAs (Decidable (bits < 2 ^ 32))
  | .f64 bits => inferInstanceAs (Decidable (bits < 2 ^ 64))
  | .varlen => inferInstanceAs (Decidable False)

lemma decField_encBytes_unsigned (o : BinOrder) (w v : Nat)
    (hv : v < 2 ^ (8 * w)) :
    decBytes o (encBytes o w v) = v := by
  rw [decBytes_encBytes, Nat.mod_eq_of_lt hv]

/-- One well-formed field encodes to exactly its width in bytes and decodes
back to itself. -/
lemma encField_spec (o : BinOrder) (f : Field) (hwf : f.wf) :
    ∃ w bs, f.ty.width = some w ∧ encField o f = some bs ∧ bs.length = w ∧
      decField o f.ty bs = some f := by
  cases f with
  | u8 v =>
    refine ⟨1, encBytes o 1 v, rfl, rfl, encBytes_length o 1 v, ?_⟩
    have hv : v < 2 ^ (8 * 1) := by
      have : v < 2 ^ 8 := hwf
      omega
    simp [decField, mkField, decField_encBytes_unsigned o 1 v hv, Field.ty]
  | u16 v =>
    refine ⟨2, encBytes o 2 v, rfl, rfl, encBytes_length o 2 v, ?_⟩
    have hv : v < 2 ^ (8 * 2) := by
      have : v < 2 ^ 16 := hwf
      omega
    simp [decField, mkField, decField_encBytes_unsigned o 2 v hv, Field.ty]
  | u32 v =>
    refine ⟨4, encBytes o 4 v, rfl, rfl, encBytes_length o 4 v, ?_⟩
    have hv : v < 2 ^ (8 * 4) := by
      have : v < 2 ^ 32 := hwf
      omega
    simp [decField, mkField, decField_encBytes_unsigned o 4 v hv, Field.ty]
  | u64 v =>
    refine ⟨8, encBytes o 8 v, rfl, rfl, encBytes_length o 8 v, ?_⟩
    have hv : v < 2 ^ (8 * 8) := by
      have : v < 2 ^ 64 := hwf
      omega
    simp [decField, mkField, decField_encBytes_unsigned o 8 v hv, Field.ty]
  | f32 bits =>
    refine ⟨4, encBytes o 4 bits, rfl, rfl, encBytes_length o 4 bits, ?_⟩
    have hv : bits < 2 ^ (8 * 4) := by
      have : bits < 2 ^ 32 := hwf
      omega
    simp [decField, mkField, decField_encBytes_unsigned o 4 bits hv, Field.ty]
  | f64 bits =>
    refine ⟨8, encBytes o 8 bits, rfl, rfl, encBytes_length o 8 bits, ?_⟩
    have hv : bits < 2 ^ (8 * 8) := by
      have : bits < 2 ^ 64 := hwf
      omega
    simp [decField, mkField, decField_encBytes_unsigned o 8 bits hv, Field.ty]
  | i8 v =>
    refine ⟨1, encBytes o 1 (toU 1 v), rfl, rfl, encBytes_length o 1 (toU 1 v), ?_⟩
    obtain ⟨hlo, hhi⟩ : -(2 ^ 7) ≤ v ∧ v < 2 ^ 7 := hwf
    have hu := decField_encBytes_unsigned o 1 (toU 1 v) (toU_lt 1 v)
    have hf := fromU_toU 1 (by norm_num) v (by norm_num; omega) (by norm_num; omega)
    simp [decField, mkField, hu, hf, Field.ty]
  | i16 v =>
    refine ⟨2, encBytes o 2 (toU 2 v), rfl, rfl, encBytes_length o 2 (toU 2 v), ?_⟩
    obtain ⟨hlo, hhi⟩ : -(2 ^ 15) ≤ v ∧ v < 2 ^ 15 := hwf
    have hu := decField_encBytes_unsigned o 2 (toU 2 v) (toU_lt 2 v)
    have hf := fromU_toU 2 (by norm_num) v (by norm_num; omega) (by norm_num; omega)
    simp [decField, mkField, hu, hf, Field.ty]
  | i32 v =>
    refine ⟨4, encBytes o 4 (toU 4 v), rfl, rfl, encBytes_length o 4 (toU 4 v), ?_⟩
    obtain ⟨hlo, hhi⟩ : -(2 ^ 31) ≤ v ∧ v < 2 ^ 31 := hwf
    have hu := decField_encBytes_unsigned o 4 (toU 4 v) (toU_lt 4 v)
    have hf := fromU_toU 4 (by norm_num) v (by norm_num; omega) (by norm_num; omega)
    simp [decField, mkField, hu, hf, Field.ty]
  | i64 v =>
    refine ⟨8, encBytes o 8 (toU 8 v), rfl, rfl, encBytes_length o 8 (toU 8 v), ?_⟩
    obtain ⟨hlo, hhi⟩ : -(2 ^ 63) ≤ v ∧ v < 2 ^ 63 := hwf
    have hu := decField_encBytes_unsigned o 8 (toU 8 v) (toU_lt 8 v)
    have hf := fromU_toU 8 (by norm_num) v (by norm_num; omega) (by norm_num; omega)
    simp [decField, mkField, hu, hf, Field.ty]
  | varlen => exact absurd hwf (by simp [Field.wf])

end Bufferio

namespace Bufferio

/-- A whole well-formed composite encodes to its exact data size and
decodes back field-for-field, also with trailing bytes present. -/
lemma encodeVal_spec (o : BinOrder) (fs : List Field) (hwf : ∀ f ∈ fs, f.wf) :
    ∃ bs sz, encodeVal o fs = some bs ∧ dataSize (fs.map Field.ty) = some sz ∧
      bs.length = sz ∧
      ∀ rest, decodeFields o (fs.map Field.ty) (bs ++ rest) = some fs := by
  induction fs with
  | nil => exact ⟨[], 0, rfl, rfl, rfl, fun rest => rfl⟩
  | cons f fs ih =>
    obtain ⟨w, bsf, hwd, henc, hlen, hdec⟩ := encField_spec o f (hwf f (by simp))
    obtain ⟨bs, sz, henc2, hsz2, hlen2, hdec2⟩ := ih (fun g hg => hwf g (by simp [hg]))
    refine ⟨bsf ++ bs, w + sz, ?_, ?_, ?_, ?_⟩
    · simp only [encodeVal, henc, henc2]
    · simp only [List.map_cons, dataSize, hwd, hsz2]
    · simp only [List.length_append, hlen, hlen2]
    · intro rest
      rw [List.append_assoc]
      simp only [List.map_cons, decodeFields, hwd]
      rw [if_neg (by rw [List.length_append, hlen]; omega)]
      rw [List.take_left' hlen, List.drop_left' hlen, hdec, hdec2 rest]

lemma dataSize_eq_none (ts : List Ty) (h : ∃ t ∈ ts, t.width = none) :
    dataSize ts = none := by
  induction ts with
  | nil => simp at h
  | cons t ts ih =>
    obtain ⟨t2, ht2, hw⟩ := h
    rcases List.mem_cons.mp ht2 with rfl | hmem
    · simp [dataSize, hw]
    · cases htw : t.width <;> simp [dataSize, htw, ih ⟨t2, hmem, hw⟩]

/-- C8: `ReadData` fails with an `EncodingError` when the target contains a
field with no fixed-width binary representation, or when the bytes
available from the cursor to the end of the buffer are fewer than the
target's required encoded size; in both cases the buffer's contents and
cursor (the whole receiver state) and the target are unchanged. The
cursor invariant of the data model (see C2) is assumed. -/
theorem C8_readData_encoding_error (b : BufferIo) (o : BinOrder) (fs : List Field)
    (hinv : inv b)
    (hfail : (∃ f ∈ fs, f.ty.width = none) ∨
      ∃ sz, dataSize (fs.map Field.ty) = some sz ∧
        (b.buf.drop b.off.toNat).length < sz) :
    ∃ e, ReadData b o fs = .ret fs (some e) b ∧ e.kind = .EncodingError := by
  have hguard : ¬ (b.off < 0 ∨ Size b < b.off) :=
    not_or.mpr ⟨not_lt.mpr hinv.1, not_lt.mpr hinv.2⟩
  refine ⟨.errEncoding, ?_, rfl⟩
  rcases hfail with ⟨f, hf, hwid⟩ | ⟨sz, hsz, hshort⟩
  · have hds : dataSize (fs.map Field.ty) = none :=
      dataSize_eq_none (fs.map Field.ty) ⟨f.ty, List.mem_map.mpr ⟨f, hf, rfl⟩, hwid⟩
    simp only [ReadData]
    rw [if_neg hguard, hds]
  · simp only [ReadData]
    rw [if_neg hguard]
    split
    · rename_i hds2
      rw [hsz] at hds2
    · rename_i sz3 hds2
      rw [hsz] at hds2
      obtain rfl : sz3 = sz := (Option.some.inj hds2).symm
      split
      · rfl
      · rename_i hc
        exact absurd hshort hc

/-- C8 witness: decoding a 4-byte field from a 3-byte buffer. -/
theorem C8_readData_encoding_error_witness :
    inv (NewBufferIo [1, 2, 3]) ∧
    (∃ e, ReadData (NewBufferIo [1, 2, 3]) .big [Field.u32 0]
        = .ret [Field.u32 0] (some e) (NewBufferIo [1, 2, 3]) ∧
      e.kind = .EncodingError) :=
  ⟨by decide,
    C8_readData_encoding_error (NewBufferIo [1, 2, 3]) .big [Field.u32 0]
      (by decide) (Or.inr ⟨4, rfl, by decide⟩)⟩

/-- C7: a successful `ReadData` decodes from the bytes at the current
cursor position and leaves the receiver — in particular the cursor —
unchanged, whereas a successful `WriteData` advances the cursor by the
number of bytes its underlying sequential `Write` copied. The cursor
invariant of the data model (see C2) is assumed. -/
theorem C7_readData_writeData_cursor_asymmetry (b : BufferIo) (o : BinOrder)
    (fs : List Field) (hinv : inv b) :
    (∀ fs2 b2, ReadData b o fs = .ret fs2 none b2 →
      b2 = b ∧
        decodeFields o (fs.map Field.ty) (b.buf.drop b.off.toNat) = some fs2) ∧
    (∀ b2, WriteData b o fs = .ret () none b2 →
      ∃ bs, encodeVal o fs = some bs ∧
        b2.off = b.off
          + ((min bs.length (b.buf.length - b.off.toNat) : Nat) : Int) ∧
        b2.buf.length = b.buf.length) := by
  have hguard : ¬ (b.off < 0 ∨ Size b < b.off) :=
    not_or.mpr ⟨not_lt.mpr hinv.1, not_lt.mpr hinv.2⟩
  constructor
  · intro fs2 b2 hr
    simp only [ReadData] at hr
    rw [if_neg hguard] at hr
    split at hr
    · simp at hr
    · split at hr
      · simp at hr
      · split at hr
        · rename_i fs3 hdec
          rw [GoRes.ret.injEq] at hr
          obtain ⟨hv, -, hb⟩ := hr
          exact ⟨hb.symm, by rw [hdec, hv]⟩
        · simp at hr
  · intro b2 hw
    simp only [WriteData] at hw
    split at hw
    · simp at hw
    · rename_i bs2 henc2
      split at hw
      · rename_i v e b3 hWr
        rw [GoRes.ret.injEq] at hw
        obtain ⟨-, he, hb3⟩ := hw
        by_cases h1 : Size b ≤ b.off
        · have hWw : Write b bs2 = .ret 0 (some .errOverrun) b := by
            simp [Write, WriteAt, h1]
          rw [hWw] at hWr
          rw [GoRes.ret.injEq] at hWr
          obtain ⟨-, he2, -⟩ := hWr
          rw [he] at he2
          simp at he2
        · have hN : b.off < Size b := not_le.mp h1
          have hW := WriteAt_ok b bs2 b.off hinv.1 hN
          have hle : b.off.toNat ≤ b.buf.length := by
            simp only [Size] at hN
            omega
          have hWrite : Write b bs2
              = .ret (min bs2.length (b.buf.length - b.off.toNat)) none
                { buf := copyInto b.buf b.off.toNat bs2,
                  off := b.off
                    + ((min bs2.length (b.buf.length - b.off.toNat) : Nat) : Int) } := by
            simp only [Write, hW]
          rw [hWrite] at hWr
          rw [GoRes.ret.injEq] at hWr
          obtain ⟨-, -, hb3b⟩ := hWr
          have hb2 : b2
              = { buf := copyInto b.buf b.off.toNat bs2,
                  off := b.off
                    + ((min bs2.length (b.buf.length - b.off.toNat) : Nat) : Int) } := by
            rw [← hb3, ← hb3b]
          refine ⟨bs2, henc2, ?_, ?_⟩
          · rw [hb2]
          · rw [hb2]
            exact copyInto_length b.buf bs2 b.off.toNat hle
      · simp at hw

/-- C7 witness: a little-endian u16 read from `[2, 1, 7]` leaves the
buffer untouched; the matching write advances the cursor by 2. -/
theorem C7_readData_writeData_cursor_asymmetry_witness :
    inv (NewBufferIo [2, 1, 7]) ∧
    ((NewBufferIo [2, 1, 7]) = (NewBufferIo [2, 1, 7]) ∧
      decodeFields .little ([Field.u16 258].map Field.ty)
        ((NewBufferIo [2, 1, 7]).buf.drop (NewBufferIo [2, 1, 7]).off.toNat)
        = some [Field.u16 258]) ∧
    (∃ bs, encodeVal .little [Field.u16 258] = some bs ∧
      ({ buf := [2, 1, 7], off := 2 } : BufferIo).off
          = (NewBufferIo [2, 1, 7]).off
            + ((min bs.length ((NewBufferIo [2, 1, 7]).buf.length
                - (NewBufferIo [2, 1, 7]).off.toNat) : Nat) : Int) ∧
      ({ buf := [2, 1, 7], off := 2 } : BufferIo).buf.length
          = (NewBufferIo [2, 1, 7]).buf.length) :=
  ⟨by decide,
    (C7_readData_writeData_cursor_asymmetry (NewBufferIo [2, 1, 7]) .little
        [Field.u16 258] (by decide)).1
      [Field.u16 258] (NewBufferIo [2, 1, 7]) (by decide),
    (C7_readData_writeData_cursor_asymmetry (NewBufferIo [2, 1, 7]) .little
        [Field.u16 258] (by decide)).2
      ({ buf := [2, 1, 7], off := 2 }) (by decide)⟩

/-- C9: encoding a well-formed composite of fixed-width fields with
`WriteData` under either byte order into a sufficiently large fresh
buffer, then decoding the written region with `ReadData` under the same
order into a zero-valued (indeed, any) instance of the same layout,
reproduces the original value field-for-field. -/
theorem C9_structured_roundtrip (o : BinOrder) (fs fs0 : List Field) (N sz : Nat)
    (hwf : ∀ f ∈ fs, f.wf)
    (hlay : fs0.map Field.ty = fs.map Field.ty)
    (hsz : dataSize (fs.map Field.ty) = some sz)
    (hszN : sz ≤ N) (hpos : 0 < N) :
    ∃ b1, WriteData (NewBufferIoMake N) o fs = .ret () none b1 ∧
      ReadData (NewBufferIo (b1.buf.take sz)) o fs0
        = .ret fs none (NewBufferIo (b1.buf.take sz)) := by
  obtain ⟨bs, sz2, henc, hds, hlen0, hdec⟩ := encodeVal_spec o fs hwf
  have hlen : bs.length = sz := by
    rw [hlen0]
    rw [hds] at hsz
    exact Option.some.inj hsz
  have hN0 : (NewBufferIoMake N).off < Size (NewBufferIoMake N) := by
    simp only [NewBufferIoMake, Size, List.length_replicate]
    exact_mod_cast hpos
  have hW := WriteAt_ok (NewBufferIoMake N) bs (NewBufferIoMake N).off
    (le_refl 0) hN0
  refine ⟨{ buf := copyInto (NewBufferIoMake N).buf (NewBufferIoMake N).off.toNat bs,
            off := (NewBufferIoMake N).off
              + ((min bs.length ((NewBufferIoMake N).buf.length
                  - (NewBufferIoMake N).off.toNat) : Nat) : Int) }, ?_, ?_⟩
  · simp only [WriteData, henc, Write, hW]
  · have hcopy : copyInto (List.replicate N 0) 0 bs
        = bs ++ (List.replicate N 0).drop sz := by
      rw [copyInto_zero, List.length_replicate, hlen, min_eq_right hszN]
      have hbst : bs.take sz = bs := by
        rw [← hlen]
        exact List.take_length bs
      rw [hbst]
    have hbb : copyInto (NewBufferIoMake N).buf (NewBufferIoMake N).off.toNat bs
        = bs ++ (List.replicate N 0).drop sz := hcopy
    have htake : (bs ++ (List.replicate N 0).drop sz).take sz = bs :=
      List.take_left' hlen
    show ReadData (NewBufferIo ((copyInto (NewBufferIoMake N).buf
        (NewBufferIoMake N).off.toNat bs).take sz)) o fs0 = _
    rw [hbb, htake]
    have hg2 : ¬ ((NewBufferIo bs).off < 0 ∨
        Size (NewBufferIo bs) < (NewBufferIo bs).off) := by
      refine not_or.mpr ⟨lt_irrefl 0, not_lt.mpr ?_⟩
      exact Int.natCast_nonneg bs.length
    have hds0 : dataSize (fs0.map Field.ty) = some sz := by
      rw [hlay]
      rw [hds] at hsz
      rw [hds, hsz]
    have havail : (NewBufferIo bs).buf.drop (NewBufferIo bs).off.toNat = bs := rfl
    have hlen3 : ¬ (bs.length < sz) := by
      rw [hlen]
      exact lt_irrefl sz
    have hdecf : decodeFields o (fs0.map Field.ty) bs = some fs := by
      have h5 := hdec []
      rw [List.append_nil] at h5
      rw [hlay]
      exact h5
    simp only [ReadData]
    rw [if_neg hg2]
    split
    · rename_i hds2
      rw [hds0] at hds2
      simp at hds2
    · rename_i sz3 hds2
      rw [hds0] at hds2
      obtain rfl : sz3 = sz := (Option.some.inj hds2).symm
      rw [havail, if_neg hlen3, hdecf]

/-- C9 witness: the pair (u16 772, i8 -3) through a 4-byte buffer under
big-endian. -/
theorem C9_structured_roundtrip_witness :
    (∀ f ∈ [Field.u16 772, Field.i8 (-3)], f.wf) ∧
    ([Field.u16 0, Field.i8 0].map Field.ty
      = [Field.u16 772, Field.i8 (-3)].map Field.ty) ∧
    dataSize ([Field.u16 772, Field.i8 (-3)].map Field.ty) = some 3 ∧
    3 ≤ 4 ∧ 0 < 4 ∧
    ∃ b1, WriteData (NewBufferIoMake 4) .big [Field.u16 772, Field.i8 (-3)]
        = .ret () none b1 ∧
      ReadData (NewBufferIo (b1.buf.take 3)) .big [Field.u16 0, Field.i8 0]
        = .ret [Field.u16 772, Field.i8 (-3)] none (NewBufferIo (b1.buf.take 3)) :=
  ⟨by decide, by decide, by decide, by decide, by decide,
    C9_structured_roundtrip .big [Field.u16 772, Field.i8 (-3)]
      [Field.u16 0, Field.i8 0] 4 3 (by decide) (by decide) (by decide)
      (by decide) (by decide)⟩

end Bufferio
